import Mathlib

set_option linter.unusedVariables false

/-
Verification of the dialogue text-tag parser and the multi-phase reveal
loop of renpy/character.py.

Strings are modelled as `List Char`.  The regular expression
`(\{\{)|(\{(p|w|nw|fast)(?:\=([^}]*))?\})` used by `re.split` in
`DialogueTextTags.__init__` is modelled by an explicit left-to-right
tokenizer producing literal characters, the brace escape, and the four
recognized tags with their optional `=value` payload.  Delay values are
rationals (`ℚ`); a delay of `none` stands for Python's `None`
("wait indefinitely").  `float(value)` failures are modelled by `Option`:
the whole construction returns `none` exactly when a recognized tag
carries a value that the float parser rejects.
-/

namespace Renpy

/-- The four tag names recognized by TAG_RE: p, w, nw, fast. -/
inductive TagName where
  | p
  | w
  | nw
  | fast
deriving DecidableEq

/-- The characters of a tag name, as they appear in the source string. -/
def tagNameChars : TagName → List Char
  | .p => ['p']
  | .w => ['w']
  | .nw => ['n', 'w']
  | .fast => ['f', 'a', 's', 't']

/-- One token of the split stream produced by TAG_RE over the raw string:
a literal character, the literal-brace escape, or a recognized tag with
its optional raw value text. -/
inductive Tok where
  | chr (c : Char)
  | quoted
  | tag (n : TagName) (v : Option (List Char))
deriving DecidableEq

/-- Match the alternation p|w|nw|fast at the head of the list.  No name is
a prefix of another, so the regex alternation is deterministic here. -/
def matchName : List Char → Option (TagName × List Char)
  | 'p' :: rest => some (.p, rest)
  | 'w' :: rest => some (.w, rest)
  | 'n' :: 'w' :: rest => some (.nw, rest)
  | 'f' :: 'a' :: 's' :: 't' :: rest => some (.fast, rest)
  | _ => none

/-- Match `([^}]*)\}`: the value runs to the next closing brace, which must
exist. -/
def scanValue (l : List Char) : Option (List Char × List Char) :=
  match l.dropWhile (fun c => !(c == '}')) with
  | '}' :: rest => some (l.takeWhile (fun c => !(c == '}')), rest)
  | _ => none

/-- Match the tag body after an opening brace: a recognized name, then
either an immediate closing brace or `=value}`. -/
def scanTag (l : List Char) : Option (TagName × Option (List Char) × List Char) :=
  match matchName l with
  | none => none
  | some (n, rest) =>
    match rest with
    | '}' :: rest2 => some (n, none, rest2)
    | '=' :: rest2 =>
      match scanValue rest2 with
      | some (v, rest3) => some (n, some v, rest3)
      | none => none
    | _ => none

/-- Fuelled tokenizer; the fuel is always instantiated with the length of
the list, which suffices because every step consumes at least one
character.  At an opening brace the escape `\x7b\x7b` takes precedence
over a tag match, mirroring the ordered regex alternation. -/
def tokenizeF : ℕ → List Char → List Tok
  | 0, _ => []
  | f + 1, l =>
    match l with
    | [] => []
    | c :: rest =>
      if c = '{' then
        if rest.head? = some '{' then
          Tok.quoted :: tokenizeF f rest.tail
        else
          match scanTag rest with
          | some (n, v, r) => Tok.tag n v :: tokenizeF f r
          | none => Tok.chr '{' :: tokenizeF f rest
      else
        Tok.chr c :: tokenizeF f rest

/-- The token stream of a raw string. -/
def tokenize (l : List Char) : List Tok :=
  tokenizeF l.length l

/-- Numeric value of a digit string. -/
def digitsVal (l : List Char) : ℕ :=
  l.foldl (fun a c => 10 * a + (c.toNat - 48)) 0

/-- A non-empty all-digit string. -/
def isDigits (l : List Char) : Bool :=
  !l.isEmpty && l.all Char.isDigit

/-- Modelled from the spec: Python's builtin `float` applied to the raw tag
value ("Numeric delay values are parsed as floating-point seconds;
malformed numeric text is a fatal parse error").  The builtin itself is
outside this repository; we model the finite decimal forms — optional
surrounding whitespace, optional sign, digits with an optional fractional
part and an optional exponent — as an exact rational.  The special texts
inf/nan are not modelled. -/
def pyFloat (s : List Char) : Option ℚ :=
  let t := ((s.dropWhile Char.isWhitespace).reverse.dropWhile Char.isWhitespace).reverse
  let sgn : ℚ := match t with
    | '-' :: _ => -1
    | _ => 1
  let u : List Char := match t with
    | '+' :: r => r
    | '-' :: r => r
    | r => r
  let mant := u.takeWhile (fun c => !(c == 'e') && !(c == 'E'))
  let erest := u.dropWhile (fun c => !(c == 'e') && !(c == 'E'))
  let expOpt : Option ℤ :=
    match erest with
    | [] => some 0
    | _ :: r =>
      let es : ℤ := match r with
        | '-' :: _ => -1
        | _ => 1
      let rd : List Char := match r with
        | '+' :: rr => rr
        | '-' :: rr => rr
        | rr => rr
      if isDigits rd then some (es * (digitsVal rd : ℤ)) else none
  let ip := mant.takeWhile (fun c => !(c == '.'))
  let frest := mant.dropWhile (fun c => !(c == '.'))
  let mantOpt : Option ℚ :=
    match frest with
    | [] => if isDigits ip then some ((digitsVal ip : ℚ)) else none
    | _ :: fp =>
      if ip.all Char.isDigit && fp.all Char.isDigit && (!ip.isEmpty || !fp.isEmpty) then
        some ((digitsVal ip : ℚ) + (digitsVal fp : ℚ) / (10 : ℚ) ^ fp.length)
      else none
  match mantOpt, expOpt with
  | some m, some e => some (sgn * m * (10 : ℚ) ^ e)
  | _, _ => none

/-- The state built by `DialogueTextTags.__init__`: the accumulated text
(the four recognized tags and the brace escape are echoed back into it),
the three parallel pause lists, and the no-wait flag. -/
structure DialogueTextTags where
  text : List Char
  pause_start : List ℕ
  pause_end : List ℕ
  pause_delay : List (Option ℚ)
  no_wait : Bool
deriving DecidableEq

/-- The initial scan state: empty text, one open segment at offset 0. -/
def dttInit : DialogueTextTags :=
  { text := [], pause_start := [0], pause_end := [], pause_delay := [], no_wait := false }

/-- The `=value` part of a tag's source text, empty when no value. -/
def valChars : Option (List Char) → List Char
  | none => []
  | some vs => '=' :: vs

/-- The full source text of a recognized tag, as re-appended to the
accumulated text by `self.text += full_tag`. -/
def fullTag (n : TagName) (v : Option (List Char)) : List Char :=
  '{' :: (tagNameChars n ++ valChars v ++ ['}'])

/-- Dispatch on a recognized tag: p/w close the current segment and open a
new one at the same offset, nw sets the no-wait flag, fast discards all
accumulated pause state and restarts at the current offset.  The full tag
text is then echoed back into the accumulated text. -/
def applyTag (st : DialogueTextTags) (n : TagName) (q : Option ℚ)
    (vs : Option (List Char)) : DialogueTextTags :=
  let st' :=
    match n with
    | .p =>
      { st with pause_start := st.pause_start ++ [st.text.length],
                pause_end := st.pause_end ++ [st.text.length],
                pause_delay := st.pause_delay ++ [q] }
    | .w =>
      { st with pause_start := st.pause_start ++ [st.text.length],
                pause_end := st.pause_end ++ [st.text.length],
                pause_delay := st.pause_delay ++ [q] }
    | .nw => { st with no_wait := true }
    | .fast =>
      { st with pause_start := [st.text.length],
                pause_end := [], pause_delay := [], no_wait := false }
  { st' with text := st'.text ++ fullTag n vs }

/-- One step of the scan loop.  A tag with a value converts the value with
`float` first; failure aborts the whole construction. -/
def stepTok (st : DialogueTextTags) : Tok → Option DialogueTextTags
  | .chr c => some { st with text := st.text ++ [c] }
  | .quoted => some { st with text := st.text ++ ['{', '{'] }
  | .tag n v =>
    match v with
    | none => some (applyTag st n none none)
    | some vs =>
      match pyFloat vs with
      | none => none
      | some q => some (applyTag st n (some q) (some vs))

/-- The scan loop over the token stream. -/
def scanToks : DialogueTextTags → List Tok → Option DialogueTextTags
  | st, [] => some st
  | st, t :: ts =>
    match stepTok st t with
    | none => none
    | some st' => scanToks st' ts

/-- The epilogue of `__init__`: close the final open segment at the final
text length and append the trailing delay (0 if no-wait was seen, else
indefinite). -/
def finishDTT (st : DialogueTextTags) : DialogueTextTags :=
  { st with pause_end := st.pause_end ++ [st.text.length],
            pause_delay := st.pause_delay ++ [if st.no_wait then some 0 else none] }

/-- `DialogueTextTags(s)`: scan the token stream of `s` from the initial
state and close out; `none` models the float conversion raising. -/
def DialogueTextTags.ofString (s : List Char) : Option DialogueTextTags :=
  (scanToks dttInit (tokenize s)).map finishDTT

/-
The reveal sequencer `display_say`.  External collaborators (renpy.ui,
renpy.game, renpy.config, the callbacks and the show function) are
modelled by an environment record and an event trace:

  * `interactResult i` models `renpy.ui.interact(...)` on phase `i`: its
    first component is whether the returned value is `False` (the
    interaction was abandoned, e.g. by roll-forward), and its second
    component is the value the global `renpy.game.after_rollback` holds
    when the interaction returns (the interaction loop may touch that
    global; `display_say` itself only reads it at entry and, on a no-wait
    line, writes the saved value back).
  * Phases record the `slow_start`/`slow_end`/delay triple handed to the
    what-text widget and the resolved click-to-continue displayable.
  * Indicator configuration values (`ctc`, `ctc_pause`, `ctc_timedpause`)
    are `Option ι` for an abstract displayable type `ι`; `none` models
    Python `None` (falsy / not configured).
-/

/-- The global/runtime inputs read by `display_say`. -/
structure SayEnv (ι : Type) where
  skipping_fast : Bool
  skipping : Bool
  skip_unseen : Bool
  seen_current : Bool
  after_rollback : Bool
  roll_forward_info : Bool
  implicit_with_none : Bool
  character_callbacks : Bool
  interactResult : ℕ → Bool × Bool

/-- One executed phase of the reveal loop. -/
structure Phase (ι : Type) where
  start : ℕ
  stop : ℕ
  delay : Option ℚ
  ctc : Option ι
  abandoned : Bool
deriving DecidableEq

/-- The observable outcome of one `display_say` call. -/
structure SayResult (ι : Type) where
  phases : List (Phase ι)
  checkpointed : Bool
  after_rollback : Bool
  with_none_done : Bool
  cleared_transients : Bool
  began : Bool
  ended : Bool
deriving DecidableEq

/-- The per-phase click-to-continue resolution of display_say (lines
412-429): the terminal ctc on the last pause, else the timed-pause ctc
(falling back to the pause ctc) for a definite delay and the pause ctc
for an indefinite one; dropped when the call is neither interactive nor
ctc-forced, and dropped when the delay is exactly zero. -/
def resolveCtc {ι : Type} (ctc ctc_pause ctc_timedpause : Option ι)
    (interact ctc_force last_pause : Bool) (delay : Option ℚ) : Option ι :=
  let c1 : Option ι :=
    if last_pause then ctc
    else
      match delay with
      | some _ => ctc_timedpause.orElse (fun _ => ctc_pause)
      | none => ctc_pause
  let c2 : Option ι := if !(interact || ctc_force) then none else c1
  if delay = some 0 then none else c2

/-- The phase loop of display_say over the zipped
(pause_start, pause_end, pause_delay) triples.  `total` is the length of
the pause_start list (used for the last-pause test), `i` the enumeration
index, and the final `Bool` threads the `renpy.game.after_rollback`
global.  When interacting, a `False` interaction result breaks out of
the loop. -/
def sayPhases {ι : Type} (env : SayEnv ι) (interact ctc_force : Bool)
    (ctc ctc_pause ctc_timedpause : Option ι) (total : ℕ) :
    ℕ → List (ℕ × ℕ × Option ℚ) → Bool → List (Phase ι) × Bool
  | _, [], ar => ([], ar)
  | i, t :: rest, ar =>
    let lastp : Bool := decide (i = total - 1)
    let ctcK := resolveCtc ctc ctc_pause ctc_timedpause interact ctc_force lastp t.2.2
    if interact then
      let ab := (env.interactResult i).1
      let ar' := (env.interactResult i).2
      let ph : Phase ι := ⟨t.1, t.2.1, t.2.2, ctcK, ab⟩
      if ab then ([ph], ar')
      else
        let r := sayPhases env interact ctc_force ctc ctc_pause ctc_timedpause total (i + 1) rest ar'
        (ph :: r.1, r.2)
    else
      let ph : Phase ι := ⟨t.1, t.2.1, t.2.2, ctcK, false⟩
      let r := sayPhases env interact ctc_force ctc ctc_pause ctc_timedpause total (i + 1) rest ar
      (ph :: r.1, r.2)

/-- `display_say` (lines 313-477).  The fast-skip early return clears
transients and runs no phases and no callbacks; otherwise the raw text is
parsed (a float error propagates as `none`), the loop either runs over
the parsed segments or over the single collapsed all-at-once segment, and
the post-loop code checkpoints or restores the after-rollback global. -/
def display_say {ι : Type} (env : SayEnv ι) (what : List Char)
    (interact slow afm all_at_once ctc_force checkpoint : Bool)
    (with_none : Option Bool) (ctc ctc_pause ctc_timedpause : Option ι) :
    Option (SayResult ι) :=
  if interact && env.skipping_fast then
    some { phases := [], checkpointed := false, after_rollback := env.after_rollback,
           with_none_done := false, cleared_transients := true,
           began := false, ended := false }
  else
    let after_rollback := env.after_rollback
    let _slow : Bool :=
      if after_rollback then false
      else if env.skipping && (env.skip_unseen || env.seen_current) then false
      else slow
    let all_at_once := if !interact then true else all_at_once
    match DialogueTextTags.ofString what with
    | none => none
    | some dtt =>
      let pause_start := if all_at_once then [dtt.pause_start.headD 0] else dtt.pause_start
      let pause_end := if all_at_once then [dtt.text.length] else dtt.pause_end
      let pause_delay := if all_at_once then [dtt.pause_delay.getLastD none] else dtt.pause_delay
      let triples := pause_start.zip (pause_end.zip pause_delay)
      let lr := sayPhases env interact ctc_force ctc ctc_pause ctc_timedpause
        pause_start.length 0 triples after_rollback
      let ckar : Bool × Bool :=
        if interact then
          if !dtt.no_wait then (checkpoint, lr.2)
          else (false, after_rollback)
        else (false, lr.2)
      let wn : Bool := match with_none with
        | none => env.implicit_with_none
        | some b => b
      some { phases := lr.1, checkpointed := ckar.1, after_rollback := ckar.2,
             with_none_done := interact && wn, cleared_transients := false,
             began := true, ended := true }

/-- The source characters a token stands for: `re.split` partitions the
raw string into literal stretches and full matches, so concatenating
these over the token stream recovers the raw string. -/
def tokChars : Tok → List Char
  | .chr c => [c]
  | .quoted => ['{', '{']
  | .tag n v => fullTag n v

/-- The indicator-kind resolution exactly as the specification words it
(spec §4.2, claim C7): suppression for a non-interactive, non-forced call;
suppression for a zero delay, including on the last phase; the terminal
indicator on the last phase; otherwise the timed-pause indicator, falling
back to the generic pause indicator, for a definite delay, and the
generic pause indicator for an indefinite one.  Compared against the
code's `resolveCtc`. -/
def indicatorKindSpec {ι : Type} (ctc ctc_pause ctc_timedpause : Option ι)
    (interact ctc_force last_pause : Bool) (delay : Option ℚ) : Option ι :=
  if !interact && !ctc_force then none
  else if delay = some 0 then none
  else if last_pause then ctc
  else
    match delay with
    | some _ => ctc_timedpause.orElse (fun _ => ctc_pause)
    | none => ctc_pause

/-- Scan-state invariant of `DialogueTextTags.__init__`: `pause_end` is
always the tail of `pause_start` (`p`/`w` append the same offset to both,
`fast` resets both), `pause_delay` keeps step with `pause_end`, the
recorded offsets are monotone, and every recorded offset is at most the
current text length. -/
structure ScanInv (st : DialogueTextTags) : Prop where
  ne : st.pause_start ≠ []
  tail_eq : st.pause_end = st.pause_start.tail
  dlen : st.pause_delay.length = st.pause_end.length
  mono : st.pause_start.Pairwise (· ≤ ·)
  bound : ∀ x ∈ st.pause_start, x ≤ st.text.length

/-- A minimal concrete environment for witnesses: no skipping, no
roll-forward, every interaction completes normally. -/
def envUnit : SayEnv Unit :=
  { skipping_fast := false, skipping := false, skip_unseen := false,
    seen_current := false, after_rollback := false, roll_forward_info := false,
    implicit_with_none := false, character_callbacks := false,
    interactResult := fun _ => (false, false) }

/-- A concrete environment whose interaction on phase 1 is abandoned by
roll-forward. -/
def envAbandon1 : SayEnv Unit :=
  { envUnit with interactResult := fun j => (decide (j = 1), false) }

/-- A concrete environment entered just after a rollback whose interaction
loop clears the global after-rollback flag. -/
def envRollback : SayEnv Unit :=
  { envUnit with after_rollback := true, interactResult := fun _ => (false, false) }

/-! ### Tokenizer reconstruction lemmas -/

theorem scanValue_eq {l v r : List Char} (h : scanValue l = some (v, r)) :
    l = v ++ '}' :: r := by
  unfold scanValue at h
  split at h
  · next c rest heq =>
    injection h with h'
    injection h' with h1 h2
    subst h1
    have := List.takeWhile_append_dropWhile (fun c => !(c == '}')) l
    rw [heq] at this
    simp_all
  · exact absurd h (by simp)

theorem matchName_eq {l r : List Char} {n : TagName} (h : matchName l = some (n, r)) :
    l = tagNameChars n ++ r := by
  unfold matchName at h
  split at h <;>
    first
    | · simp only [Option.some.injEq, Prod.mk.injEq] at h
        obtain ⟨rfl, rfl⟩ := h
        simp [tagNameChars]
    | exact absurd h (by simp)

theorem scanTag_eq {l r : List Char} {n : TagName} {v : Option (List Char)}
    (h : scanTag l = some (n, v, r)) :
    l = tagNameChars n ++ valChars v ++ '}' :: r := by
  unfold scanTag at h
  split at h
  · exact absurd h (by simp)
  · next n' rest heq =>
    have hl := matchName_eq heq
    split at h
    · next rest2 =>
      simp only [Option.some.injEq, Prod.mk.injEq] at h
      obtain ⟨rfl, rfl, rfl⟩ := h
      simp_all [valChars]
    · next rest2 =>
      split at h
      · next v' rest3 hsv =>
        have hv := scanValue_eq hsv
        simp only [Option.some.injEq, Prod.mk.injEq] at h
        obtain ⟨rfl, rfl, rfl⟩ := h
        subst hv
        simp_all [valChars]
      · exact absurd h (by simp)
    · exact absurd h (by simp)

theorem scanTag_len {l r : List Char} {n : TagName} {v : Option (List Char)}
    (h : scanTag l = some (n, v, r)) : r.length < l.length := by
  have h' := scanTag_eq h
  subst h'
  simp
  omega

theorem fullTag_append {l r : List Char} {n : TagName} {v : Option (List Char)}
    (h : scanTag l = some (n, v, r)) : fullTag n v ++ r = '{' :: l := by
  have h' := scanTag_eq h
  subst h'
  simp [fullTag]

theorem tokenizeF_nil (f : ℕ) : tokenizeF f [] = [] := by
  cases f <;> rfl

theorem tokenizeF_quoted (f : ℕ) (t : List Char) :
    tokenizeF (f + 1) ('{' :: '{' :: t) = Tok.quoted :: tokenizeF f t := rfl

theorem tokenizeF_brace (f : ℕ) (rest : List Char) (hh : rest.head? ≠ some '{') :
    tokenizeF (f + 1) ('{' :: rest) =
      match scanTag rest with
      | some (n, v, r) => Tok.tag n v :: tokenizeF f r
      | none => Tok.chr '{' :: tokenizeF f rest := by
  rw [tokenizeF]
  simp [hh]

theorem tokenizeF_chr (f : ℕ) (c : Char) (rest : List Char) (hc : c ≠ '{') :
    tokenizeF (f + 1) (c :: rest) = Tok.chr c :: tokenizeF f rest := by
  rw [tokenizeF]
  simp [hc]

theorem tokenizeF_rebuild : ∀ (f : ℕ) (l : List Char), l.length ≤ f →
    ((tokenizeF f l).map tokChars).flatten = l := by
  intro f
  induction f with
  | zero =>
    intro l hl
    have : l = [] := List.eq_nil_of_length_eq_zero (Nat.le_zero.mp hl)
    subst this
    simp [tokenizeF_nil]
  | succ f ih =>
    intro l hl
    match l with
    | [] => simp [tokenizeF_nil]
    | c :: rest =>
      by_cases hc : c = '{'
      · subst hc
        have hbrace : rest.head? ≠ some '{' →
            ((tokenizeF (f + 1) ('{' :: rest)).map tokChars).flatten = '{' :: rest := by
          intro hh
          rw [tokenizeF_brace f rest hh]
          cases hscan : scanTag rest with
          | some res =>
            obtain ⟨n, v, r⟩ := res
            have hlen : r.length < rest.length := scanTag_len hscan
            have hr : r.length ≤ f := by simp at hl; omega
            simp only [List.map_cons, List.flatten_cons, ih r hr, tokChars]
            exact fullTag_append hscan
          | none =>
            have hrest : rest.length ≤ f := by simp at hl; omega
            simp [tokChars, ih rest hrest]
        rcases rest with _ | ⟨a, t⟩
        · exact hbrace (by simp)
        · by_cases ha : a = '{'
          · subst ha
            rw [tokenizeF_quoted]
            have ht : t.length ≤ f := by simp at hl; omega
            simp [tokChars, ih t ht]
          · exact hbrace (by simp [ha])
      · rw [tokenizeF_chr f c rest hc]
        have hrest : rest.length ≤ f := by simp at hl; omega
        simp [hc, tokChars, ih rest hrest]

theorem tokenize_rebuild (l : List Char) : ((tokenize l).map tokChars).flatten = l :=
  tokenizeF_rebuild l.length l le_rfl

/-! ### The accumulated text echoes the whole raw string -/

theorem stepTok_text {st st' : DialogueTextTags} {t : Tok}
    (h : stepTok st t = some st') : st'.text = st.text ++ tokChars t := by
  cases t with
  | chr c => simp only [stepTok, Option.some.injEq] at h; subst h; rfl
  | quoted => simp only [stepTok, Option.some.injEq] at h; subst h; rfl
  | tag n v =>
    cases v with
    | none =>
      simp only [stepTok, Option.some.injEq] at h
      subst h
      cases n <;> simp [applyTag, tokChars]
    | some vs =>
      simp only [stepTok] at h
      cases hq : pyFloat vs with
      | none => rw [hq] at h; exact absurd h (by simp)
      | some q =>
        rw [hq] at h
        simp only [Option.some.injEq] at h
        subst h
        cases n <;> simp [applyTag, tokChars]

theorem scanToks_text : ∀ (ts : List Tok) (st st' : DialogueTextTags),
    scanToks st ts = some st' → st'.text = st.text ++ (ts.map tokChars).flatten := by
  intro ts
  induction ts with
  | nil => intro st st' h; simp only [scanToks, Option.some.injEq] at h; subst h; simp
  | cons t ts ih =>
    intro st st' h
    simp only [scanToks] at h
    cases hs : stepTok st t with
    | none => rw [hs] at h; exact absurd h (by simp)
    | some st1 =>
      rw [hs] at h
      rw [ih st1 st' h, stepTok_text hs]
      simp

theorem dtt_text_eq {s : List Char} {dtt : DialogueTextTags}
    (h : DialogueTextTags.ofString s = some dtt) : dtt.text = s := by
  unfold DialogueTextTags.ofString at h
  cases hsc : scanToks dttInit (tokenize s) with
  | none => rw [hsc] at h; exact absurd h (by simp)
  | some st =>
    rw [hsc] at h
    simp only [Option.map_some', Option.some.injEq] at h
    subst h
    have h2 := scanToks_text (tokenize s) dttInit st hsc
    rw [tokenize_rebuild] at h2
    show st.text = s
    rw [h2]
    rfl

/-! ### The scan-state invariant -/

theorem scanInv_init : ScanInv dttInit := by
  constructor <;> simp [dttInit]

theorem stepTok_text_le {st st' : DialogueTextTags} {t : Tok}
    (h : stepTok st t = some st') : st.text.length ≤ st'.text.length := by
  rw [stepTok_text h]
  simp

theorem stepTok_inv {st st' : DialogueTextTags} {t : Tok}
    (hinv : ScanInv st) (h : stepTok st t = some st') : ScanInv st' := by
  have htext := stepTok_text_le h
  have pauseFacts :
      (st'.pause_start = st.pause_start ∧ st'.pause_end = st.pause_end ∧
        st'.pause_delay = st.pause_delay) ∨
      (∃ q, st'.pause_start = st.pause_start ++ [st.text.length] ∧
        st'.pause_end = st.pause_end ++ [st.text.length] ∧
        st'.pause_delay = st.pause_delay ++ [q]) ∨
      (st'.pause_start = [st.text.length] ∧ st'.pause_end = [] ∧
        st'.pause_delay = []) := by
    cases t with
    | chr c =>
      simp only [stepTok, Option.some.injEq] at h
      subst h; left; exact ⟨rfl, rfl, rfl⟩
    | quoted =>
      simp only [stepTok, Option.some.injEq] at h
      subst h; left; exact ⟨rfl, rfl, rfl⟩
    | tag n v =>
      have happ : ∃ q vs, st' = applyTag st n q vs := by
        cases v with
        | none =>
          simp only [stepTok, Option.some.injEq] at h
          exact ⟨none, none, h.symm⟩
        | some vs =>
          simp only [stepTok] at h
          cases hq : pyFloat vs with
          | none => rw [hq] at h; exact absurd h (by simp)
          | some q =>
            rw [hq] at h
            simp only [Option.some.injEq] at h
            exact ⟨some q, some vs, h.symm⟩
      obtain ⟨q, vs, rfl⟩ := happ
      cases n with
      | p => right; left; exact ⟨q, rfl, rfl, rfl⟩
      | w => right; left; exact ⟨q, rfl, rfl, rfl⟩
      | nw => left; exact ⟨rfl, rfl, rfl⟩
      | fast => right; right; exact ⟨rfl, rfl, rfl⟩
  rcases pauseFacts with ⟨h1, h2, h3⟩ | ⟨q, h1, h2, h3⟩ | ⟨h1, h2, h3⟩
  · exact ⟨h1 ▸ hinv.ne, by rw [h1, h2, hinv.tail_eq], by rw [h2, h3, hinv.dlen],
      h1 ▸ hinv.mono,
      fun x hx => le_trans (hinv.bound x (h1 ▸ hx)) htext⟩
  · refine ⟨by simp [h1], ?_, by simp [h2, h3, hinv.dlen], ?_, ?_⟩
    · rw [h1, h2, hinv.tail_eq]
      rcases hst : st.pause_start with _ | ⟨a, t'⟩
      · exact absurd hst hinv.ne
      · simp
    · rw [h1]
      rw [List.pairwise_append]
      exact ⟨hinv.mono, by simp, fun a ha b hb => by
        simp at hb; subst hb; exact hinv.bound a ha⟩
    · intro x hx
      rw [h1] at hx
      rcases List.mem_append.mp hx with hx1 | hx2
      · exact le_trans (hinv.bound x hx1) htext
      · simp at hx2; subst hx2; exact htext
  · refine ⟨by simp [h1], by simp [h1, h2], by simp [h2, h3], by simp [h1], ?_⟩
    intro x hx
    rw [h1] at hx
    simp at hx
    subst hx
    exact htext

theorem scanToks_inv : ∀ (ts : List Tok) (st st' : DialogueTextTags),
    ScanInv st → scanToks st ts = some st' → ScanInv st' := by
  intro ts
  induction ts with
  | nil =>
    intro st st' hinv h
    simp only [scanToks, Option.some.injEq] at h
    subst h
    exact hinv
  | cons t ts ih =>
    intro st st' hinv h
    simp only [scanToks] at h
    cases hs : stepTok st t with
    | none => rw [hs] at h; exact absurd h (by simp)
    | some st1 =>
      rw [hs] at h
      exact ih st1 st' (stepTok_inv hinv hs) h

/-- The facts about a finished `DialogueTextTags` object that the claims
need: the start list is non-empty, the end list is the tail of the start
list closed with the final text length, the delay list keeps step, the
start offsets are monotone and bounded by the text length. -/
theorem dtt_final {s : List Char} {dtt : DialogueTextTags}
    (h : DialogueTextTags.ofString s = some dtt) :
    dtt.pause_start ≠ [] ∧
    dtt.pause_end = dtt.pause_start.tail ++ [dtt.text.length] ∧
    dtt.pause_delay.length = dtt.pause_end.length ∧
    dtt.pause_start.Pairwise (· ≤ ·) ∧
    (∀ x ∈ dtt.pause_start, x ≤ dtt.text.length) := by
  unfold DialogueTextTags.ofString at h
  cases hsc : scanToks dttInit (tokenize s) with
  | none => rw [hsc] at h; exact absurd h (by simp)
  | some st =>
    rw [hsc] at h
    simp only [Option.map_some', Option.some.injEq] at h
    subst h
    have hinv := scanToks_inv (tokenize s) dttInit st scanInv_init hsc
    refine ⟨hinv.ne, ?_, ?_, hinv.mono, hinv.bound⟩
    · show st.pause_end ++ [st.text.length] = st.pause_start.tail ++ [st.text.length]
      rw [hinv.tail_eq]
    · simp only [finishDTT, List.length_append, List.length_cons, List.length_nil, hinv.dlen]

/-- The three lists of a finished object have equal lengths, at least 1. -/
theorem dtt_lengths {s : List Char} {dtt : DialogueTextTags}
    (h : DialogueTextTags.ofString s = some dtt) :
    dtt.pause_start.length = dtt.pause_end.length ∧
    dtt.pause_end.length = dtt.pause_delay.length ∧
    1 ≤ dtt.pause_start.length := by
  obtain ⟨hne, hend, hdlen, _, _⟩ := dtt_final h
  have h1 : dtt.pause_start.length = dtt.pause_start.tail.length + 1 := by
    rcases hst : dtt.pause_start with _ | ⟨a, t'⟩
    · exact absurd hst hne
    · simp
  refine ⟨?_, hdlen.symm, by omega⟩
  rw [hend]
  simp only [List.length_append, List.length_cons, List.length_nil]
  omega

/-! ### Index-level helpers -/

theorem getD_eq_get {l : List ℕ} {i : ℕ} (h : i < l.length) :
    l.getD i 0 = l.get ⟨i, h⟩ := by
  simp [List.getD, List.getElem?_eq_getElem, h]

theorem getD_append_left {l₁ l₂ : List ℕ} {n : ℕ} (h : n < l₁.length) :
    (l₁ ++ l₂).getD n 0 = l₁.getD n 0 := by
  simp [List.getD, List.getElem?_append, h]

theorem getD_append_last {l : List ℕ} {x : ℕ} :
    (l ++ [x]).getD l.length 0 = x := by
  simp [List.getD, List.getElem?_append]

theorem getD_mem {l : List ℕ} {i : ℕ} (h : i < l.length) : l.getD i 0 ∈ l := by
  rw [getD_eq_get h]
  exact l.get_mem i h

theorem pairwise_le_getD {l : List ℕ} (hp : l.Pairwise (· ≤ ·)) {i j : ℕ}
    (hij : i ≤ j) (hj : j < l.length) : l.getD i 0 ≤ l.getD j 0 := by
  rcases Nat.lt_or_ge i j with hlt | hge
  · have hi : i < l.length := lt_trans hlt hj
    rw [getD_eq_get hi, getD_eq_get hj]
    exact (List.pairwise_iff_get.mp hp) ⟨i, hi⟩ ⟨j, hj⟩ hlt
  · have : i = j := le_antisymm hij hge
    subst this
    exact le_rfl

theorem getD_tail {a : ℕ} {t : List ℕ} {i : ℕ} :
    t.getD i 0 = (a :: t).getD (i + 1) 0 := by
  simp [List.getD]

/-! ### No fast tag means the first offset stays 0 -/

theorem stepTok_headD {st st' : DialogueTextTags} {t : Tok}
    (h : stepTok st t = some st') (hne : st.pause_start ≠ [])
    (hf : ∀ v, t ≠ Tok.tag TagName.fast v) :
    st'.pause_start.headD 0 = st.pause_start.headD 0 := by
  cases t with
  | chr c => simp only [stepTok, Option.some.injEq] at h; subst h; rfl
  | quoted => simp only [stepTok, Option.some.injEq] at h; subst h; rfl
  | tag n v =>
    have happ : ∃ q vs, st' = applyTag st n q vs := by
      cases v with
      | none =>
        simp only [stepTok, Option.some.injEq] at h
        exact ⟨none, none, h.symm⟩
      | some vs =>
        simp only [stepTok] at h
        cases hq : pyFloat vs with
        | none => rw [hq] at h; exact absurd h (by simp)
        | some q =>
          rw [hq] at h
          simp only [Option.some.injEq] at h
          exact ⟨some q, some vs, h.symm⟩
    obtain ⟨q, vs, rfl⟩ := happ
    cases n with
    | p =>
      show (st.pause_start ++ [st.text.length]).headD 0 = st.pause_start.headD 0
      rcases hst : st.pause_start with _ | ⟨a, t'⟩
      · exact absurd hst hne
      · simp
    | w =>
      show (st.pause_start ++ [st.text.length]).headD 0 = st.pause_start.headD 0
      rcases hst : st.pause_start with _ | ⟨a, t'⟩
      · exact absurd hst hne
      · simp
    | nw => rfl
    | fast => exact absurd rfl (hf v)

theorem scanToks_headD : ∀ (ts : List Tok) (st st' : DialogueTextTags),
    ScanInv st → scanToks st ts = some st' →
    (∀ n v, Tok.tag n v ∈ ts → n ≠ TagName.fast) →
    st'.pause_start.headD 0 = st.pause_start.headD 0 := by
  intro ts
  induction ts with
  | nil =>
    intro st st' hinv h _
    simp only [scanToks, Option.some.injEq] at h
    subst h
    rfl
  | cons t ts ih =>
    intro st st' hinv h hf
    simp only [scanToks] at h
    cases hs : stepTok st t with
    | none => rw [hs] at h; exact absurd h (by simp)
    | some st1 =>
      rw [hs] at h
      have hstep := stepTok_headD hs hinv.ne (fun v heq => by
        subst heq
        exact hf TagName.fast v (List.mem_cons_self _ _) rfl)
      rw [ih st1 st' (stepTok_inv hinv hs) h
        (fun n v hv => hf n v (List.mem_cons_of_mem _ hv)), hstep]

/-! ### Exactly the bad float values make construction fail -/

theorem stepTok_eq_none {st : DialogueTextTags} {t : Tok} :
    stepTok st t = none ↔ ∃ n v, t = Tok.tag n (some v) ∧ pyFloat v = none := by
  cases t with
  | chr c => simp [stepTok]
  | quoted => simp [stepTok]
  | tag n v =>
    cases v with
    | none => simp [stepTok]
    | some vs =>
      cases hq : pyFloat vs with
      | none =>
        simp only [stepTok, hq]
        exact ⟨fun _ => ⟨n, vs, rfl, hq⟩, fun _ => trivial⟩
      | some q =>
        simp only [stepTok, hq]
        constructor
        · intro hcontra
          exact absurd hcontra (by simp)
        · rintro ⟨n', v', heq, hn⟩
          injection heq with h1 h2
          injection h2 with h3
          subst h3
          rw [hq] at hn
          exact absurd hn (by simp)

theorem scanToks_eq_none : ∀ (ts : List Tok) (st : DialogueTextTags),
    scanToks st ts = none ↔ ∃ n v, Tok.tag n (some v) ∈ ts ∧ pyFloat v = none := by
  intro ts
  induction ts with
  | nil => intro st; simp [scanToks]
  | cons t ts ih =>
    intro st
    simp only [scanToks]
    cases hs : stepTok st t with
    | none =>
      obtain ⟨n, v, rfl, hv⟩ := stepTok_eq_none.mp hs
      simp only [true_iff, iff_true]
      exact ⟨n, v, List.mem_cons_self _ _, hv⟩
    | some st1 =>
      rw [ih st1]
      constructor
      · rintro ⟨n, v, hmem, hv⟩
        exact ⟨n, v, List.mem_cons_of_mem _ hmem, hv⟩
      · rintro ⟨n, v, hmem, hv⟩
        rcases List.mem_cons.mp hmem with heq | hmem'
        · subst heq
          have : stepTok st (Tok.tag n (some v)) = none :=
            stepTok_eq_none.mpr ⟨n, v, rfl, hv⟩
          rw [this] at hs
          exact absurd hs (by simp)
        · exact ⟨n, v, hmem', hv⟩

/-! ### Concrete evaluations used by the claims -/

theorem pyFloat_15 : pyFloat ['1', '.', '5'] = some ((3 : ℚ)/2) := by
  have h : pyFloat ['1', '.', '5'] =
      some ((1 : ℚ) * ((digitsVal ['1'] : ℚ) + (digitsVal ['5'] : ℚ) / (10 : ℚ) ^ (1 : ℕ)) *
        (10 : ℚ) ^ (0 : ℤ)) := rfl
  have h1 : digitsVal ['1'] = 1 := by decide
  have h5 : digitsVal ['5'] = 5 := by decide
  rw [h, h1, h5]
  norm_num

theorem dtt_15 : DialogueTextTags.ofString "a{w=1.5}b".toList =
    some { text := "a{w=1.5}b".toList, pause_start := [0, 1], pause_end := [1, 9],
           pause_delay := [some ((3 : ℚ)/2), none], no_wait := false } := by
  have htk : tokenize "a{w=1.5}b".toList =
      [Tok.chr 'a', Tok.tag TagName.w (some ['1', '.', '5']), Tok.chr 'b'] := by decide
  unfold DialogueTextTags.ofString
  rw [htk]
  simp only [scanToks, stepTok, pyFloat_15, dttInit, applyTag]
  simp only [Option.map_some', Option.some.injEq, finishDTT, DialogueTextTags.mk.injEq]
  exact ⟨by decide, by decide, by decide, by simp, trivial⟩

/-! ### Claim C1 -/

/-- C1 (counterexample): the claim says `parse("a\x7bw=1.5\x7db")` has plain
text of length 2 and second segment `[1,2)`.  In the code the full tag
text is echoed back into `self.text` (line 86), so the plain text is the
whole 9-character input and the second segment is `[1,9)`. -/
theorem c1_counterexample :
    (DialogueTextTags.ofString "a{w=1.5}b".toList).map (fun d => d.text.length) = some 9 ∧
    (9 : ℕ) ≠ 2 ∧
    (DialogueTextTags.ofString "a{w=1.5}b".toList).map DialogueTextTags.pause_end ≠
      some [1, 2] := by
  refine ⟨?_, by decide, ?_⟩ <;> rw [dtt_15] <;> decide

/-- C1 (amended): for every raw string on which parsing succeeds, the
plain text equals the raw string verbatim — recognized control tags and
the brace escape are echoed back into the text, while pause offsets are
recorded before the echo; in particular `"a\x7bw=1.5\x7db"` parses to
plain text of length 9 with segments `[0,1)` carrying delay 1.5 and
`[1,9)` with indefinite delay, and `no_wait = false`. -/
theorem c1_text_verbatim {s : List Char} {dtt : DialogueTextTags}
    (h : DialogueTextTags.ofString s = some dtt) :
    dtt.text = s ∧
    DialogueTextTags.ofString "a{w=1.5}b".toList =
      some { text := "a{w=1.5}b".toList, pause_start := [0, 1], pause_end := [1, 9],
             pause_delay := [some ((3 : ℚ)/2), none], no_wait := false } :=
  ⟨dtt_text_eq h, dtt_15⟩

/-- C1 (witness): the amended theorem applied to the empty raw string. -/
theorem c1_witness :
    ({ text := [], pause_start := [0], pause_end := [0], pause_delay := [none],
       no_wait := false } : DialogueTextTags).text = ([] : List Char) ∧
    DialogueTextTags.ofString "a{w=1.5}b".toList =
      some { text := "a{w=1.5}b".toList, pause_start := [0, 1], pause_end := [1, 9],
             pause_delay := [some ((3 : ℚ)/2), none], no_wait := false } :=
  c1_text_verbatim (by decide)

/-! ### Claim C2 -/

theorem dtt_headD_no_fast {s : List Char} {dtt : DialogueTextTags}
    (h : DialogueTextTags.ofString s = some dtt)
    (hf : ∀ n v, Tok.tag n v ∈ tokenize s → n ≠ TagName.fast) :
    dtt.pause_start.headD 0 = 0 := by
  unfold DialogueTextTags.ofString at h
  cases hsc : scanToks dttInit (tokenize s) with
  | none => rw [hsc] at h; exact absurd h (by simp)
  | some st =>
    rw [hsc] at h
    simp only [Option.map_some', Option.some.injEq] at h
    subst h
    show st.pause_start.headD 0 = 0
    rw [scanToks_headD (tokenize s) dttInit st scanInv_init hsc hf]
    rfl

/-- C2 (counterexample): on `"a\x7bfast\x7db"` parsing succeeds and the
single recorded segment starts at offset 1, not 0, so the segments do not
cover `[0, len(plain_text))`. -/
theorem c2_counterexample :
    (DialogueTextTags.ofString "a{fast}b".toList).map DialogueTextTags.pause_start =
      some [1] ∧
    (DialogueTextTags.ofString "a{fast}b".toList).map DialogueTextTags.pause_start ≠
      some [0] := by decide

/-- C2 (amended): for every raw string on which parse succeeds there is at
least one segment, the three boundary lists pair up, the segments are
contiguous and non-overlapping, and the last segment ends at
`len(plain_text)`; the first segment starts at 0 whenever the input
contains no fast tag (a mid-string fast tag makes it start at the offset
where the tag was seen). -/
theorem c2_segments_amended {s : List Char} {dtt : DialogueTextTags}
    (h : DialogueTextTags.ofString s = some dtt) :
    1 ≤ dtt.pause_start.length ∧
    dtt.pause_start.length = dtt.pause_end.length ∧
    (∀ i, i + 1 < dtt.pause_start.length →
      dtt.pause_end.getD i 0 = dtt.pause_start.getD (i + 1) 0) ∧
    (∀ i, i < dtt.pause_start.length →
      dtt.pause_start.getD i 0 ≤ dtt.pause_end.getD i 0) ∧
    dtt.pause_end.getD (dtt.pause_start.length - 1) 0 = dtt.text.length ∧
    ((∀ n v, Tok.tag n v ∈ tokenize s → n ≠ TagName.fast) →
      dtt.pause_start.getD 0 0 = 0) := by
  obtain ⟨hne, hend, hdlen, hmono, hbound⟩ := dtt_final h
  obtain ⟨hlen, _, hpos⟩ := dtt_lengths h
  obtain ⟨a, t, hst⟩ : ∃ a t, dtt.pause_start = a :: t := by
    rcases h' : dtt.pause_start with _ | ⟨a, t⟩
    · exact absurd h' hne
    · exact ⟨a, t, rfl⟩
  have htail : dtt.pause_start.tail = t := by rw [hst]; rfl
  rw [htail] at hend
  have hlent : dtt.pause_start.length = t.length + 1 := by rw [hst]; simp
  have hcontig : ∀ i, i + 1 < dtt.pause_start.length →
      dtt.pause_end.getD i 0 = dtt.pause_start.getD (i + 1) 0 := by
    intro i hi
    have hit : i < t.length := by omega
    rw [hend, getD_append_left hit, hst, ← getD_tail]
  refine ⟨hpos, hlen, hcontig, ?_, ?_, ?_⟩
  · intro i hi
    rcases Nat.lt_or_ge i (dtt.pause_start.length - 1) with hlt | hge
    · have h2 : i + 1 < dtt.pause_start.length := by omega
      rw [hcontig i h2]
      exact pairwise_le_getD hmono (Nat.le_succ i) h2
    · have hieq : i = dtt.pause_start.length - 1 := by omega
      subst hieq
      have hit : dtt.pause_start.length - 1 = t.length := by omega
      rw [hend, hit, getD_append_last]
      exact hbound _ (getD_mem (show t.length < dtt.pause_start.length by omega))
  · have hit : dtt.pause_start.length - 1 = t.length := by omega
    rw [hend, hit, getD_append_last]
  · intro hf
    have hh := dtt_headD_no_fast h hf
    rw [hst] at hh ⊢
    simpa using hh

/-- C2 (witness): the amended theorem applied to the empty raw string. -/
theorem c2_witness :
    1 ≤ ([0] : List ℕ).length ∧
    ([0] : List ℕ).length = ([0] : List ℕ).length ∧
    (∀ i, i + 1 < ([0] : List ℕ).length →
      ([0] : List ℕ).getD i 0 = ([0] : List ℕ).getD (i + 1) 0) ∧
    (∀ i, i < ([0] : List ℕ).length →
      ([0] : List ℕ).getD i 0 ≤ ([0] : List ℕ).getD i 0) ∧
    ([0] : List ℕ).getD (([0] : List ℕ).length - 1) 0 = ([] : List Char).length ∧
    ((∀ n v, Tok.tag n v ∈ tokenize [] → n ≠ TagName.fast) →
      ([0] : List ℕ).getD 0 0 = 0) :=
  @c2_segments_amended [] ⟨[], [0], [0], [none], false⟩ (by decide)

/-! ### Claim C3 -/

/-- C3 (counterexample): the claim says
`parse("a\x7bp\x7db\x7bfast\x7dc").segments` has length 1 covering the
full output text; the code indeed yields a single segment, but it is
`[5,12)` — it starts at the offset where the fast tag was seen, not at
0, so it does not cover the full text. -/
theorem c3_counterexample :
    (DialogueTextTags.ofString "a{p}b{fast}c".toList).map DialogueTextTags.pause_start =
      some [5] ∧
    (DialogueTextTags.ofString "a{p}b{fast}c".toList).map DialogueTextTags.pause_end =
      some [12] ∧
    (5 : ℕ) ≠ 0 := by decide

/-- C3 (amended): processing a fast tag discards all previously
accumulated segment boundaries, delays and the no-wait flag and restarts
accumulation at the current plain-text offset; in particular
`"a\x7bp\x7db\x7bfast\x7dc"` parses to a single segment `[5,12)` running
from the fast-tag offset to the end of the text, with no pause recorded
from the discarded prefix and `no_wait = false`. -/
theorem c3_fast_reset (st : DialogueTextTags) :
    stepTok st (Tok.tag TagName.fast none) =
      some { text := st.text ++ fullTag TagName.fast none,
             pause_start := [st.text.length], pause_end := [], pause_delay := [],
             no_wait := false } ∧
    DialogueTextTags.ofString "a{p}b{fast}c".toList =
      some { text := "a{p}b{fast}c".toList, pause_start := [5], pause_end := [12],
             pause_delay := [none], no_wait := false } :=
  ⟨rfl, by decide⟩

/-! ### Claim C4 -/

/-- C4 (counterexample): the claim says `parse("a\x7b\x7bb")` yields plain
text `"a\x7bb"`; the code echoes the two-character escape back (line 69),
so the plain text is `"a\x7b\x7bb"` of length 4. -/
theorem c4_counterexample :
    (DialogueTextTags.ofString "a\x7b\x7bb".toList).map DialogueTextTags.text =
      some "a\x7b\x7bb".toList ∧
    "a\x7b\x7bb".toList ≠ "a\x7bb".toList := by decide

/-- C4 (amended): the brace escape is consumed as a unit — it does not
start a tag and records no segment boundary — and is echoed into the
plain text as the two characters of the escape (collapsing to a single
brace is left to the downstream text renderer); `"a\x7b\x7bb"` parses to
plain text `"a\x7b\x7bb"` with exactly one segment `[0,4)`. -/
theorem c4_escape (st : DialogueTextTags) :
    stepTok st Tok.quoted = some { st with text := st.text ++ ['{', '{'] } ∧
    DialogueTextTags.ofString "a\x7b\x7bb".toList =
      some { text := "a\x7b\x7bb".toList, pause_start := [0], pause_end := [4],
             pause_delay := [none], no_wait := false } :=
  ⟨rfl, by decide⟩

/-! ### Claim C5 -/

/-- C5: parsing never fails on malformed markup — unrecognized or
unterminated tags are passed through as literal text — and the
construction fails (raising the float format error, with no partial
result) exactly when some recognized tag carries a value the float
parser rejects; `"\x7bp=xyz\x7d"` fails, while the unterminated
`"\x7bp=0.5"` succeeds as literal text. -/
theorem c5_parse_error_iff :
    (∀ s : List Char, DialogueTextTags.ofString s = none ↔
      ∃ n v, Tok.tag n (some v) ∈ tokenize s ∧ pyFloat v = none) ∧
    DialogueTextTags.ofString "{p=xyz}".toList = none ∧
    DialogueTextTags.ofString "\x7bp=0.5".toList ≠ none := by
  refine ⟨fun s => ?_, by decide, by decide⟩
  unfold DialogueTextTags.ofString
  rw [Option.map_eq_none']
  exact scanToks_eq_none (tokenize s) dttInit

/-! ### Claim C10 -/

/-- C10: for every input on which construction succeeds the finished
object satisfies `len(pause_start) = len(pause_end) = len(pause_delay) ≥ 1`,
so the zip over the three lists in display_say iterates over every
recorded segment with none silently truncated. -/
theorem c10_parallel_lists {s : List Char} {dtt : DialogueTextTags}
    (h : DialogueTextTags.ofString s = some dtt) :
    dtt.pause_start.length = dtt.pause_end.length ∧
    dtt.pause_end.length = dtt.pause_delay.length ∧
    1 ≤ dtt.pause_start.length ∧
    (dtt.pause_start.zip (dtt.pause_end.zip dtt.pause_delay)).length =
      dtt.pause_start.length := by
  obtain ⟨h1, h2, h3⟩ := dtt_lengths h
  refine ⟨h1, h2, h3, ?_⟩
  simp only [List.length_zip]
  omega

/-- C10 (witness): the parallel-lists theorem applied to `"go\x7bnw\x7d"`. -/
theorem c10_witness :
    ([0] : List ℕ).length = ([6] : List ℕ).length ∧
    ([6] : List ℕ).length = ([some (0 : ℚ)] : List (Option ℚ)).length ∧
    1 ≤ ([0] : List ℕ).length ∧
    (([0] : List ℕ).zip (([6] : List ℕ).zip ([some (0 : ℚ)] : List (Option ℚ)))).length =
      ([0] : List ℕ).length :=
  @c10_parallel_lists ("go{nw}".toList) ⟨"go{nw}".toList, [0], [6], [some 0], true⟩ (by decide)

/-! ### The reveal sequencer -/

theorem display_say_normal {ι : Type} (env : SayEnv ι) (what : List Char)
    (interact slow afm all_at_once ctc_force checkpoint : Bool)
    (with_none : Option Bool) (ctc ctc_pause ctc_timedpause : Option ι)
    {dtt : DialogueTextTags}
    (hskip : (interact && env.skipping_fast) = false)
    (hdtt : DialogueTextTags.ofString what = some dtt) :
    display_say env what interact slow afm all_at_once ctc_force checkpoint
        with_none ctc ctc_pause ctc_timedpause =
      (let aao := if !interact then true else all_at_once
       let pause_start := if aao then [dtt.pause_start.headD 0] else dtt.pause_start
       let pause_end := if aao then [dtt.text.length] else dtt.pause_end
       let pause_delay := if aao then [dtt.pause_delay.getLastD none] else dtt.pause_delay
       let lr := sayPhases env interact ctc_force ctc ctc_pause ctc_timedpause
         pause_start.length 0 (pause_start.zip (pause_end.zip pause_delay)) env.after_rollback
       let ckar : Bool × Bool :=
         if interact then
           if !dtt.no_wait then (checkpoint, lr.2) else (false, env.after_rollback)
         else (false, lr.2)
       some { phases := lr.1, checkpointed := ckar.1, after_rollback := ckar.2,
              with_none_done := interact &&
                (match with_none with | none => env.implicit_with_none | some b => b),
              cleared_transients := false, began := true, ended := true }) := by
  unfold display_say
  rw [hdtt]
  simp only [hskip]
  rfl

theorem sayPhases_singleton {ι : Type} (env : SayEnv ι) (interact cf : Bool)
    (c cp ctp : Option ι) (total i : ℕ) (t : ℕ × ℕ × Option ℚ) (ar : Bool) :
    ∃ ab, (sayPhases env interact cf c cp ctp total i [t] ar).1 =
      [⟨t.1, t.2.1, t.2.2,
        resolveCtc c cp ctp interact cf (decide (i = total - 1)) t.2.2, ab⟩] := by
  cases interact with
  | false => exact ⟨false, by simp [sayPhases]⟩
  | true =>
    cases hab : (env.interactResult i).1 with
    | true => exact ⟨true, by simp [sayPhases, hab]⟩
    | false => exact ⟨false, by simp [sayPhases, hab]⟩

theorem sayPhases_abandon {ι : Type} (env : SayEnv ι) (cf : Bool)
    (c cp ctp : Option ι) (total : ℕ) :
    ∀ (tr : List (ℕ × ℕ × Option ℚ)) (i k : ℕ) (ar : Bool),
      k < tr.length →
      (∀ j, j < k → (env.interactResult (i + j)).1 = false) →
      (env.interactResult (i + k)).1 = true →
      (sayPhases env true cf c cp ctp total i tr ar).1.length = k + 1 := by
  intro tr
  induction tr with
  | nil => intro i k ar hk _ _; simp at hk
  | cons t rest ih =>
    intro i k ar hk hbefore habandon
    cases k with
    | zero =>
      have h0 : (env.interactResult i).1 = true := by simpa using habandon
      simp [sayPhases, h0]
    | succ k =>
      have h0 : (env.interactResult i).1 = false := by
        have := hbefore 0 (Nat.succ_pos k)
        simpa using this
      have hrec := ih (i + 1) k ((env.interactResult i).2)
        (by simpa using hk)
        (fun j hj => by
          have := hbefore (j + 1) (by omega)
          simpa [Nat.add_assoc, Nat.add_comm 1 j] using this)
        (by
          have : i + (k + 1) = i + 1 + k := by omega
          rw [← this]
          exact habandon)
      simp [sayPhases, h0, hrec]

/-! ### Claim C6 -/

/-- C6: when all-at-once is in effect — forced by the caller or forced
because the call is non-interacting — and the fast-skip early return is
not taken, the loop runs exactly one phase whose start is the first real
segment's start, whose end is the full text length, and whose delay is
the original last segment's delay. -/
theorem c6_all_at_once {ι : Type} (env : SayEnv ι) (what : List Char)
    (interact slow afm all_at_once ctc_force checkpoint : Bool)
    (with_none : Option Bool) (ctc ctc_pause ctc_timedpause : Option ι)
    {dtt : DialogueTextTags} {res : SayResult ι}
    (hmode : all_at_once = true ∨ interact = false)
    (hskip : (interact && env.skipping_fast) = false)
    (hdtt : DialogueTextTags.ofString what = some dtt)
    (hrun : display_say env what interact slow afm all_at_once ctc_force checkpoint
      with_none ctc ctc_pause ctc_timedpause = some res) :
    ∃ ph : Phase ι, res.phases = [ph] ∧ ph.start = dtt.pause_start.headD 0 ∧
      ph.stop = dtt.text.length ∧ ph.delay = dtt.pause_delay.getLastD none := by
  rw [display_say_normal env what interact slow afm all_at_once ctc_force checkpoint
    with_none ctc ctc_pause ctc_timedpause hskip hdtt] at hrun
  have haao : (if !interact then true else all_at_once) = true := by
    rcases hmode with h | h
    · subst h; cases interact <;> rfl
    · subst h; rfl
  simp only [haao, if_true, List.zip_cons_cons, List.zip_nil_right, List.length_cons,
    List.length_nil, Option.some.injEq] at hrun
  obtain ⟨ab, hph⟩ := sayPhases_singleton env interact ctc_force ctc ctc_pause ctc_timedpause
    1 0 (dtt.pause_start.headD 0, dtt.text.length, dtt.pause_delay.getLastD none)
    env.after_rollback
  refine ⟨⟨dtt.pause_start.headD 0, dtt.text.length, dtt.pause_delay.getLastD none,
    resolveCtc ctc ctc_pause ctc_timedpause interact ctc_force (decide ((0 : ℕ) = 1 - 1))
      (dtt.pause_delay.getLastD none), ab⟩, ?_, rfl, rfl, rfl⟩
  rw [← hrun]
  exact hph

/-- C6 (witness): the all-at-once theorem applied to a caller-forced
all-at-once interactive call on `"a\x7bp\x7db"`. -/
theorem c6_witness :
    ∃ ph : Phase Unit,
      ({ phases := [⟨0, 5, none, none, false⟩], checkpointed := false, after_rollback := false,
         with_none_done := false, cleared_transients := false, began := true,
         ended := true } : SayResult Unit).phases = [ph] ∧
      ph.start = ([0, 1] : List ℕ).headD 0 ∧
      ph.stop = "a{p}b".toList.length ∧
      ph.delay = ([none, none] : List (Option ℚ)).getLastD none :=
  @c6_all_at_once Unit envUnit ("a{p}b".toList) true false false true false false none
    none none none
    ⟨"a{p}b".toList, [0, 1], [1, 5], [none, none], false⟩
    { phases := [⟨0, 5, none, none, false⟩], checkpointed := false, after_rollback := false,
      with_none_done := false, cleared_transients := false, began := true, ended := true }
    (Or.inl rfl) (by decide) (by decide) (by decide)

/-! ### Claim C7 -/

/-- C7: the per-phase click-to-continue resolution of display_say agrees
with the specification's description: terminal indicator on the last
phase, timed-pause indicator (falling back to the generic pause
indicator) for a definite mid-sequence delay and the generic pause
indicator for an indefinite one, suppressed when the call is neither
interactive nor indicator-forced, and suppressed whenever the resolved
delay is exactly zero — including on the last phase. -/
theorem c7_indicator_kind {ι : Type} (ctc ctc_pause ctc_timedpause : Option ι)
    (interact ctc_force last_pause : Bool) (delay : Option ℚ) :
    resolveCtc ctc ctc_pause ctc_timedpause interact ctc_force last_pause delay =
      indicatorKindSpec ctc ctc_pause ctc_timedpause interact ctc_force last_pause delay := by
  unfold resolveCtc indicatorKindSpec
  cases interact <;> cases ctc_force <;> cases last_pause <;>
    rcases delay with _ | q <;> simp

/-! ### Claim C8 -/

/-- C8: in an interactive (non-fast-skipped, not all-at-once) call whose
interaction wait reports abandonment by roll-forward at phase k, the
phase loop stops after phase k — exactly k+1 phases are rendered — yet
the call completes successfully: it returns a result and the begin/end
lifecycle callbacks both fire. -/
theorem c8_rollforward_early_exit {ι : Type} (env : SayEnv ι) (what : List Char)
    (slow afm ctc_force checkpoint : Bool) (with_none : Option Bool)
    (ctc ctc_pause ctc_timedpause : Option ι) {dtt : DialogueTextTags}
    {res : SayResult ι} {k : ℕ}
    (hskip : env.skipping_fast = false)
    (hdtt : DialogueTextTags.ofString what = some dtt)
    (hk : k < dtt.pause_start.length)
    (hbefore : ∀ j, j < k → (env.interactResult j).1 = false)
    (habandon : (env.interactResult k).1 = true)
    (hrun : display_say env what true slow afm false ctc_force checkpoint
      with_none ctc ctc_pause ctc_timedpause = some res) :
    res.phases.length = k + 1 ∧ res.began = true ∧ res.ended = true := by
  rw [display_say_normal env what true slow afm false ctc_force checkpoint
    with_none ctc ctc_pause ctc_timedpause (by simp [hskip]) hdtt] at hrun
  have hres := Option.some.inj hrun
  subst hres
  refine ⟨?_, rfl, rfl⟩
  show (sayPhases env true ctc_force ctc ctc_pause ctc_timedpause
    dtt.pause_start.length 0 (dtt.pause_start.zip (dtt.pause_end.zip dtt.pause_delay))
    env.after_rollback).1.length = k + 1
  refine sayPhases_abandon env ctc_force ctc ctc_pause ctc_timedpause
    dtt.pause_start.length _ 0 k env.after_rollback ?_ ?_ ?_
  · obtain ⟨h1, h2, _⟩ := dtt_lengths hdtt
    simp only [List.length_zip]
    omega
  · intro j hj
    simpa using hbefore j hj
  · simpa using habandon

/-- C8 (witness): the early-exit theorem applied to the three-segment
line `"a\x7bp\x7db\x7bp\x7dc"` with an interaction abandoned on phase 1:
two phases execute, the third is skipped, and the call still ends. -/
theorem c8_witness :
    ({ phases := [⟨0, 1, none, none, false⟩, ⟨1, 5, none, none, true⟩], checkpointed := false,
       after_rollback := false, with_none_done := false, cleared_transients := false,
       began := true, ended := true } : SayResult Unit).phases.length = 2 ∧
    ({ phases := [⟨0, 1, none, none, false⟩, ⟨1, 5, none, none, true⟩], checkpointed := false,
       after_rollback := false, with_none_done := false, cleared_transients := false,
       began := true, ended := true } : SayResult Unit).began = true ∧
    ({ phases := [⟨0, 1, none, none, false⟩, ⟨1, 5, none, none, true⟩], checkpointed := false,
       after_rollback := false, with_none_done := false, cleared_transients := false,
       began := true, ended := true } : SayResult Unit).ended = true :=
  @c8_rollforward_early_exit Unit envAbandon1 ("a{p}b{p}c".toList) false false false false
    none none none none
    ⟨"a{p}b{p}c".toList, [0, 1, 5], [1, 5, 9], [none, none, none], false⟩
    { phases := [⟨0, 1, none, none, false⟩, ⟨1, 5, none, none, true⟩], checkpointed := false,
      after_rollback := false, with_none_done := false, cleared_transients := false,
      began := true, ended := true }
    1 (by decide) (by decide) (by decide)
    (fun j hj => by
      have hj0 : j = 0 := by omega
      subst hj0
      decide)
    (by decide) (by decide)

/-! ### Claim C9 -/

/-- C9 (counterexample): an interactive call with no no-wait flag whose
caller passed `checkpoint=False` marks no checkpoint, contradicting the
claim that after an interactive call without the no-wait flag a rollback
checkpoint is always marked. -/
theorem c9_counterexample :
    (display_say envUnit "hi".toList true false false false false false none
      none none none).map SayResult.checkpointed = some false ∧
    (DialogueTextTags.ofString "hi".toList).map DialogueTextTags.no_wait = some false := by
  decide

/-- C9 (amended): after the phase loop of an interactive (non-fast-skipped)
call, if the parsed text had no no-wait flag a rollback checkpoint is
marked exactly when the caller's checkpoint argument is enabled (its
default); if the no-wait flag was set, no checkpoint is taken and the
global after-rollback flag is restored to exactly the value it held at
the start of the call. -/
theorem c9_checkpoint_amended {ι : Type} (env : SayEnv ι) (what : List Char)
    (slow afm all_at_once ctc_force checkpoint : Bool) (with_none : Option Bool)
    (ctc ctc_pause ctc_timedpause : Option ι) {dtt : DialogueTextTags} {res : SayResult ι}
    (hskip : env.skipping_fast = false)
    (hdtt : DialogueTextTags.ofString what = some dtt)
    (hrun : display_say env what true slow afm all_at_once ctc_force checkpoint
      with_none ctc ctc_pause ctc_timedpause = some res) :
    (dtt.no_wait = false → res.checkpointed = checkpoint) ∧
    (dtt.no_wait = true → res.checkpointed = false ∧
      res.after_rollback = env.after_rollback) := by
  rw [display_say_normal env what true slow afm all_at_once ctc_force checkpoint
    with_none ctc ctc_pause ctc_timedpause (by simp [hskip]) hdtt] at hrun
  have hres := Option.some.inj hrun
  subst hres
  constructor
  · intro hnw
    simp [hnw]
  · intro hnw
    constructor <;> simp [hnw]

/-- C9 (witness): the amended theorem applied to the no-wait line
`"go\x7bnw\x7d"` in an after-rollback environment whose interaction
clears the global flag: no checkpoint is taken and the flag is restored
to its starting value. -/
theorem c9_witness :
    ((true : Bool) = false →
      ({ phases := [⟨0, 6, some 0, none, false⟩], checkpointed := false, after_rollback := true,
         with_none_done := false, cleared_transients := false, began := true,
         ended := true } : SayResult Unit).checkpointed = true) ∧
    ((true : Bool) = true →
      ({ phases := [⟨0, 6, some 0, none, false⟩], checkpointed := false, after_rollback := true,
         with_none_done := false, cleared_transients := false, began := true,
         ended := true } : SayResult Unit).checkpointed = false ∧
      ({ phases := [⟨0, 6, some 0, none, false⟩], checkpointed := false, after_rollback := true,
         with_none_done := false, cleared_transients := false, began := true,
         ended := true } : SayResult Unit).after_rollback = envRollback.after_rollback) :=
  @c9_checkpoint_amended Unit envRollback ("go{nw}".toList) false false false false true
    none none none none
    ⟨"go{nw}".toList, [0], [6], [some 0], true⟩
    { phases := [⟨0, 6, some 0, none, false⟩], checkpointed := false, after_rollback := true,
      with_none_done := false, cleared_transients := false, began := true, ended := true }
    (by decide) (by decide) (by decide)

end Renpy
